import Mathlib

/-!
Verification of the fast-response k-server placement algorithm from
`src/Fastkserver.py` (duplicated in `src/unnamed/part_000`).

The program is embedded shallowly:
* the weight array `w` (1-indexed, `w[0]` unused) becomes a function `ℕ → ℕ`
  (the spec restricts inputs to non-negative integer weights);
* the prefix-sum arrays `W` and `XW` become recursively defined functions
  with values in `ℤ` (Python integers are unbounded, and the cost algebra
  subtracts);
* the float `inf` used to initialise the DP table becomes `⊤ : WithTop ℤ`,
  whose order and addition agree with Python's `inf` on the operations the
  program performs (`inf + c = inf`, `c < inf`, `¬ inf < inf`);
* table cells that the loops never write keep their initialisation value
  (`0` for `cost`/`best_server`, `⊤` for `DP`, `-1` for `choice`), which the
  guarded definitions below reproduce;
* the backtracking loop's index `j` is an integer that Python uses to index
  a list of length `n+1`, so a negative `j` is interpreted with Python's
  negative-index semantics (`j + (n+1)`).
-/

namespace Fastkserver

/-- Prefix sums of the traffic weights: the array `W` built by the loop
`W[i] = W[i-1] + w[i]` in `fast_response_k_server`. -/
def Wpre (w : ℕ → ℕ) : ℕ → ℤ
  | 0 => 0
  | i + 1 => Wpre w i + w (i + 1)

/-- Prefix sums of position times weight: the array `XW` built by the loop
`XW[i] = XW[i-1] + i * w[i]` in `fast_response_k_server`. -/
def XWpre (w : ℕ → ℕ) : ℕ → ℤ
  | 0 => 0
  | i + 1 => XWpre w i + (i + 1 : ℕ) * w (i + 1)

/-- The scan loop of `find_weighted_median`: starting from position `lo`,
examine `len` consecutive positions; the first position whose prefix sum
reaches `target` is returned (the Python loop sets `m = pos` and breaks);
if none does, the initial value `m` is returned unchanged. -/
def scanMedian (W : ℕ → ℤ) (target : ℤ) : ℕ → ℕ → ℕ → ℕ
  | m, _, 0 => m
  | m, lo, len + 1 => if target ≤ W lo then lo else scanMedian W target m (lo + 1) len

/-- The function `find_weighted_median(i, j, W)` of the source: computes
`totalW = W[j] - W[i-1]`, `target = W[i-1] + (totalW + 1) // 2`, and scans
positions `i..j` for the first one with `W[pos] >= target` (Python's `//`
is floor division, `Int.fdiv`). -/
def find_weighted_median (i j : ℕ) (W : ℕ → ℤ) : ℕ :=
  scanMedian W (W (i - 1) + (W j - W (i - 1) + 1).fdiv 2) i i (j + 1 - i)

/-- The body of the interval-cost computation for one cell `(i, j)` of the
table: the weighted median `m`, the `Left` cost from the prefix algebra when
`i ≤ m - 1`, the `Right` cost when `m + 1 ≤ j`, and their sum. -/
def costCore (w : ℕ → ℕ) (i j : ℕ) : ℤ :=
  let W := Wpre w
  let XW := XWpre w
  let m := find_weighted_median i j W
  let Left : ℤ := if i ≤ m - 1 then
      (m : ℤ) * (W (m - 1) - W (i - 1)) - (XW (m - 1) - XW (i - 1)) else 0
  let Right : ℤ := if m + 1 ≤ j then
      (XW j - XW m) - (m : ℤ) * (W j - W m) else 0
  Left + Right

/-- The `cost` table of `fast_response_k_server`: cells with
`1 ≤ i ≤ j ≤ n` are written by the double loop; all other cells keep their
initialisation value `0`. -/
def cost (w : ℕ → ℕ) (n i j : ℕ) : ℤ :=
  if 1 ≤ i ∧ i ≤ j ∧ j ≤ n then costCore w i j else 0

/-- The `best_server` table of `fast_response_k_server`: cells with
`1 ≤ i ≤ j ≤ n` hold the weighted median of the interval; all other cells
keep their initialisation value `0`. -/
def best_server (w : ℕ → ℕ) (n i j : ℕ) : ℕ :=
  if 1 ≤ i ∧ i ≤ j ∧ j ≤ n then find_weighted_median i j (Wpre w) else 0

/-- The total weighted distance of clients `i..j` to a server placed at
position `c` (the brute-force objective the interval-cost stage minimises). -/
def sumDist (w : ℕ → ℕ) (i j c : ℕ) : ℤ :=
  ∑ p ∈ Finset.Icc i j, (w p : ℤ) * |(p : ℤ) - (c : ℤ)|

/-- The inner minimisation loop of the DP stage: starting from
`best_val = inf`, `best_i = -1`, fold over the candidate split points,
replacing the accumulator exactly when `val < best_val` (strict comparison,
so the first index attaining the final minimum is kept). -/
def minFold (f : ℕ → WithTop ℤ) (l : List ℕ) : WithTop ℤ × ℤ :=
  l.foldl (fun acc i => if f i < acc.1 then (f i, (i : ℤ)) else acc) (⊤, -1)

/-- The `DP` table of `fast_response_k_server`: `DP[0][0] = 0`,
`DP[1][j] = cost[1][j]` for `1 ≤ j ≤ n`, and for `t ≥ 2` and `t ≤ j ≤ n`
the minimum over `i ∈ range(t-1, j)` of `DP[t-1][i] + cost[i+1][j]`;
every cell the loops do not write keeps its initialisation value `inf`. -/
def DP (w : ℕ → ℕ) (n : ℕ) : ℕ → ℕ → WithTop ℤ
  | 0, j => if j = 0 then (0 : WithTop ℤ) else ⊤
  | 1, j => if 1 ≤ j ∧ j ≤ n then ((cost w n 1 j : ℤ) : WithTop ℤ) else ⊤
  | t + 2, j =>
    if t + 2 ≤ j ∧ j ≤ n then
      (minFold (fun i => DP w n (t + 1) i + ((cost w n (i + 1) j : ℤ) : WithTop ℤ))
        (List.range' (t + 1) (j - (t + 1)))).1
    else ⊤

/-- The `choice` table of `fast_response_k_server`: `choice[1][j] = 0` for
`1 ≤ j ≤ n`, and for `t ≥ 2`, `t ≤ j ≤ n` the `best_i` of the same
minimisation loop as `DP`; unwritten cells keep their initialisation `-1`. -/
def choice (w : ℕ → ℕ) (n : ℕ) : ℕ → ℕ → ℤ
  | 0, _ => -1
  | 1, j => if 1 ≤ j ∧ j ≤ n then 0 else -1
  | t + 2, j =>
    if t + 2 ≤ j ∧ j ≤ n then
      (minFold (fun i => DP w n (t + 1) i + ((cost w n (i + 1) j : ℤ) : WithTop ℤ))
        (List.range' (t + 1) (j - (t + 1)))).2
    else -1

/-- The backtracking loop of `fast_response_k_server`: while `t > 0`, read
`i = choice[t][j]`, emit the segment `(i+1, j)`, and continue from
`(t-1, i)`.  The loop variable `j` is a Python integer; when it is negative
Python's list indexing reads `choice[t][j + (n+1)]` (the row has `n+1`
entries).  The emitted list is in server order `k, k-1, ..., 1`. -/
def backtrackAux (ch : ℕ → ℕ → ℤ) (n : ℕ) : ℕ → ℤ → List (ℤ × ℤ)
  | 0, _ => []
  | t + 1, j =>
    let jn : ℤ := if j < 0 then j + (n + 1) else j
    let i := ch (t + 1) jn.toNat
    (i + 1, j) :: backtrackAux ch n t i

/-- The function `fast_response_k_server(n, k, w)` of the source: returns
the triple `(min_total_cost, server_positions, segments)`.  `segments` is the
reversed backtracking list; `server_positions` maps each `(L, R)` to
`best_server[L][R]` when `L ≤ R` and to `None` otherwise. -/
def fast_response_k_server (n k : ℕ) (w : ℕ → ℕ) :
    WithTop ℤ × List (Option ℕ) × List (ℤ × ℤ) :=
  let min_total_cost := DP w n k n
  let segments := (backtrackAux (choice w n) n k (n : ℤ)).reverse
  let server_positions := segments.map fun s =>
    if s.1 ≤ s.2 then some (best_server w n s.1.toNat s.2.toNat) else none
  (min_total_cost, server_positions, segments)

/-! Prefix-sum algebra. -/

lemma Wpre_mono (w : ℕ → ℕ) : Monotone (Wpre w) := by
  apply monotone_nat_of_le_succ
  intro i
  simp only [Wpre]
  exact le_add_of_nonneg_right (by positivity)

lemma Wpre_sub (w : ℕ → ℕ) {a b : ℕ} (h : a ≤ b) :
    Wpre w b - Wpre w a = ∑ p ∈ Finset.Ioc a b, (w p : ℤ) := by
  induction b, h using Nat.le_induction with
  | base => simp
  | succ b hab ih =>
    rw [Finset.sum_Ioc_succ_top hab, ← ih]
    simp only [Wpre]
    ring

lemma XWpre_sub (w : ℕ → ℕ) {a b : ℕ} (h : a ≤ b) :
    XWpre w b - XWpre w a = ∑ p ∈ Finset.Ioc a b, (p : ℤ) * (w p : ℤ) := by
  induction b, h using Nat.le_induction with
  | base => simp
  | succ b hab ih =>
    rw [Finset.sum_Ioc_succ_top hab, ← ih]
    simp only [XWpre]
    push_cast
    ring

/-! The weighted-median scan. -/

lemma scanMedian_spec (W : ℕ → ℤ) (target : ℤ) (m : ℕ) :
    ∀ len lo, (∃ p, lo ≤ p ∧ p < lo + len ∧ target ≤ W p) →
      lo ≤ scanMedian W target m lo len ∧ scanMedian W target m lo len < lo + len ∧
      target ≤ W (scanMedian W target m lo len) ∧
      ∀ q, lo ≤ q → target ≤ W q → scanMedian W target m lo len ≤ q := by
  intro len
  induction len with
  | zero =>
    rintro lo ⟨p, h1, h2, -⟩
    omega
  | succ len ih =>
    intro lo hex
    simp only [scanMedian]
    by_cases h : target ≤ W lo
    · rw [if_pos h]
      exact ⟨le_refl _, by omega, h, fun q hq _ => hq⟩
    · rw [if_neg h]
      obtain ⟨p, h1, h2, h3⟩ := hex
      have hp : lo + 1 ≤ p := by
        rcases Nat.eq_or_lt_of_le h1 with rfl | h'
        · exact absurd h3 h
        · exact h'
      obtain ⟨a1, a2, a3, a4⟩ := ih (lo + 1) ⟨p, hp, by omega, h3⟩
      refine ⟨by omega, by omega, a3, fun q hq hWq => ?_⟩
      rcases Nat.eq_or_lt_of_le hq with rfl | h'
      · exact absurd hWq h
      · exact a4 q h' hWq

/-- Bounds for the integer half `(total + 1) // 2` used by the median scan:
it squeezes between `total/2` and `(total+1)/2`. -/
lemma median_target_bounds (w : ℕ → ℕ) {i j : ℕ} (h1 : 1 ≤ i) (h2 : i ≤ j) :
    Wpre w j - Wpre w (i - 1) ≤ 2 * ((Wpre w j - Wpre w (i - 1) + 1).fdiv 2) ∧
    2 * ((Wpre w j - Wpre w (i - 1) + 1).fdiv 2) ≤ Wpre w j - Wpre w (i - 1) + 1 := by
  have htot : 0 ≤ Wpre w j - Wpre w (i - 1) :=
    sub_nonneg.mpr (Wpre_mono w (by omega))
  set tot := Wpre w j - Wpre w (i - 1) with htotdef
  rw [Int.fdiv_eq_ediv _ (by norm_num)]
  have hdm := Int.ediv_add_emod (tot + 1) 2
  have hm0 : 0 ≤ (tot + 1) % 2 := Int.emod_nonneg _ (by norm_num)
  have hm1 : (tot + 1) % 2 < 2 := Int.emod_lt_of_pos _ (by norm_num)
  omega

/-- Characterisation of `find_weighted_median`: on the prefix sums of a
non-negative weight sequence it returns the smallest position of `[i, j]`
whose prefix sum reaches the target `W[i-1] + (W[j] - W[i-1] + 1) // 2`. -/
lemma find_weighted_median_spec (w : ℕ → ℕ) {i j : ℕ} (h1 : 1 ≤ i) (h2 : i ≤ j) :
    i ≤ find_weighted_median i j (Wpre w) ∧ find_weighted_median i j (Wpre w) ≤ j ∧
    Wpre w (i - 1) + (Wpre w j - Wpre w (i - 1) + 1).fdiv 2 ≤
      Wpre w (find_weighted_median i j (Wpre w)) ∧
    ∀ q, i ≤ q →
      Wpre w (i - 1) + (Wpre w j - Wpre w (i - 1) + 1).fdiv 2 ≤ Wpre w q →
      find_weighted_median i j (Wpre w) ≤ q := by
  have hb := median_target_bounds w h1 h2
  have htot : 0 ≤ Wpre w j - Wpre w (i - 1) :=
    sub_nonneg.mpr (Wpre_mono w (by omega))
  have hex : ∃ p, i ≤ p ∧ p < i + (j + 1 - i) ∧
      Wpre w (i - 1) + (Wpre w j - Wpre w (i - 1) + 1).fdiv 2 ≤ Wpre w p := by
    refine ⟨j, h2, by omega, by omega⟩
  obtain ⟨a1, a2, a3, a4⟩ := scanMedian_spec (Wpre w)
    (Wpre w (i - 1) + (Wpre w j - Wpre w (i - 1) + 1).fdiv 2) i (j + 1 - i) i hex
  simp only [find_weighted_median]
  exact ⟨a1, by omega, a3, a4⟩

/-- At the weighted median, twice the cumulative weight reaches the interval
endpoints' sum: the inequality that makes the objective non-decreasing to
the right of the median. -/
lemma median_half_ge (w : ℕ → ℕ) {i j : ℕ} (h1 : 1 ≤ i) (h2 : i ≤ j) :
    Wpre w (i - 1) + Wpre w j ≤ 2 * Wpre w (find_weighted_median i j (Wpre w)) := by
  obtain ⟨-, -, a3, -⟩ := find_weighted_median_spec w h1 h2
  have hb := median_target_bounds w h1 h2
  omega

/-- Strictly before the weighted median, twice the cumulative weight stays
below the interval endpoints' sum: the inequality that makes the objective
strictly controlled to the left of the median. -/
lemma before_median_half_lt (w : ℕ → ℕ) {i j p : ℕ} (h1 : 1 ≤ i) (h2 : i ≤ j)
    (hp1 : i ≤ p) (hp2 : p < find_weighted_median i j (Wpre w)) :
    2 * Wpre w p < Wpre w (i - 1) + Wpre w j := by
  obtain ⟨-, -, -, a4⟩ := find_weighted_median_spec w h1 h2
  have hb := median_target_bounds w h1 h2
  have hlt : Wpre w p < Wpre w (i - 1) + (Wpre w j - Wpre w (i - 1) + 1).fdiv 2 := by
    by_contra hge
    exact absurd (a4 p hp1 (not_lt.mp hge)) (by omega)
  omega

/-! Interval-cost algebra: the prefix-sum expression computes the sum of
weighted distances to the median, and the median minimises that sum. -/

lemma Icc_eq_Ioc {i j : ℕ} (h : 1 ≤ i) : Finset.Icc i j = Finset.Ioc (i - 1) j := by
  cases i with
  | zero => omega
  | succ i => simpa using Nat.Icc_succ_left i j

/-- Moving the server one step right changes the objective by
(weight at or left of `c`) minus (weight right of `c`). -/
lemma sumDist_succ (w : ℕ → ℕ) {i j c : ℕ} (h1 : 1 ≤ i) (hic : i ≤ c + 1) (hcj : c ≤ j) :
    sumDist w i j (c + 1) + (Wpre w j - Wpre w c) =
      sumDist w i j c + (Wpre w c - Wpre w (i - 1)) := by
  have hsplit : i - 1 ≤ c := by omega
  unfold sumDist
  rw [Icc_eq_Ioc h1]
  rw [← Finset.sum_Ioc_consecutive (fun p => (w p : ℤ) * |(p : ℤ) - ((c + 1 : ℕ) : ℤ)|) hsplit hcj]
  rw [← Finset.sum_Ioc_consecutive (fun p => (w p : ℤ) * |(p : ℤ) - (c : ℤ)|) hsplit hcj]
  rw [Wpre_sub w hsplit, Wpre_sub w hcj]
  have hL : ∑ p ∈ Finset.Ioc (i - 1) c, (w p : ℤ) * |(p : ℤ) - ((c + 1 : ℕ) : ℤ)| =
      ∑ p ∈ Finset.Ioc (i - 1) c, ((w p : ℤ) * |(p : ℤ) - (c : ℤ)| + (w p : ℤ)) := by
    apply Finset.sum_congr rfl
    intro p hp
    have hpc : p ≤ c := (Finset.mem_Ioc.mp hp).2
    have e1 : |(p : ℤ) - ((c + 1 : ℕ) : ℤ)| = (c : ℤ) + 1 - p := by
      rw [abs_of_nonpos (by push_cast; omega)]
      push_cast
      ring
    have e2 : |(p : ℤ) - (c : ℤ)| = (c : ℤ) - p := by
      rw [abs_of_nonpos (by omega)]
      ring
    rw [e1, e2]
    ring
  have hR : ∑ p ∈ Finset.Ioc c j, (w p : ℤ) * |(p : ℤ) - ((c + 1 : ℕ) : ℤ)| +
        ∑ p ∈ Finset.Ioc c j, (w p : ℤ) =
      ∑ p ∈ Finset.Ioc c j, (w p : ℤ) * |(p : ℤ) - (c : ℤ)| := by
    rw [← Finset.sum_add_distrib]
    apply Finset.sum_congr rfl
    intro p hp
    have hpc : c < p := (Finset.mem_Ioc.mp hp).1
    have e1 : |(p : ℤ) - ((c + 1 : ℕ) : ℤ)| = (p : ℤ) - ((c : ℤ) + 1) := by
      rw [abs_of_nonneg (by push_cast; omega)]
      push_cast
      ring
    have e2 : |(p : ℤ) - (c : ℤ)| = (p : ℤ) - c := abs_of_nonneg (by omega)
    rw [e1, e2]
    ring
  rw [hL, Finset.sum_add_distrib]
  linarith [hR]

/-- The guarded prefix-sum expression of the interval-cost stage equals the
sum of weighted distances of the clients `i..j` to the weighted median. -/
lemma cost_eq_sumDist (w : ℕ → ℕ) {n i j : ℕ} (h1 : 1 ≤ i) (h2 : i ≤ j) (h3 : j ≤ n) :
    cost w n i j = sumDist w i j (find_weighted_median i j (Wpre w)) := by
  obtain ⟨hm1, hm2, -, -⟩ := find_weighted_median_spec w h1 h2
  set m := find_weighted_median i j (Wpre w) with hm
  have s1 : i - 1 ≤ m - 1 := by omega
  have s3 : i - 1 ≤ m := by omega
  have key : sumDist w i j m =
      (if i ≤ m - 1 then
        (m : ℤ) * (Wpre w (m - 1) - Wpre w (i - 1)) - (XWpre w (m - 1) - XWpre w (i - 1))
       else 0) +
      (if m + 1 ≤ j then
        (XWpre w j - XWpre w m) - (m : ℤ) * (Wpre w j - Wpre w m)
       else 0) := by
    unfold sumDist
    rw [Icc_eq_Ioc h1]
    rw [← Finset.sum_Ioc_consecutive (fun p => (w p : ℤ) * |(p : ℤ) - (m : ℤ)|) s3 hm2]
    rw [← Finset.sum_Ioc_consecutive (fun p => (w p : ℤ) * |(p : ℤ) - (m : ℤ)|) s1 (by omega : m - 1 ≤ m)]
    have hmid : ∑ p ∈ Finset.Ioc (m - 1) m, (w p : ℤ) * |(p : ℤ) - (m : ℤ)| = 0 := by
      have hset : Finset.Ioc (m - 1) m = {m} := by
        ext x
        simp only [Finset.mem_Ioc, Finset.mem_singleton]
        omega
      rw [hset]
      simp
    have hleft : ∑ p ∈ Finset.Ioc (i - 1) (m - 1), (w p : ℤ) * |(p : ℤ) - (m : ℤ)| =
        if i ≤ m - 1 then
          (m : ℤ) * (Wpre w (m - 1) - Wpre w (i - 1)) - (XWpre w (m - 1) - XWpre w (i - 1))
        else 0 := by
      by_cases hc : i ≤ m - 1
      · rw [if_pos hc, Wpre_sub w s1, XWpre_sub w s1, Finset.mul_sum, ← Finset.sum_sub_distrib]
        apply Finset.sum_congr rfl
        intro p hp
        have hpm : p ≤ m - 1 := (Finset.mem_Ioc.mp hp).2
        have e : |(p : ℤ) - (m : ℤ)| = (m : ℤ) - p := by
          rw [abs_of_nonpos (by omega)]
          ring
        rw [e]
        ring
      · rw [if_neg hc]
        have he : Finset.Ioc (i - 1) (m - 1) = ∅ := Finset.Ioc_eq_empty (by omega)
        simp [he]
    have hright : ∑ p ∈ Finset.Ioc m j, (w p : ℤ) * |(p : ℤ) - (m : ℤ)| =
        if m + 1 ≤ j then
          (XWpre w j - XWpre w m) - (m : ℤ) * (Wpre w j - Wpre w m)
        else 0 := by
      by_cases hc : m + 1 ≤ j
      · rw [if_pos hc, Wpre_sub w hm2, XWpre_sub w hm2, Finset.mul_sum, ← Finset.sum_sub_distrib]
        apply Finset.sum_congr rfl
        intro p hp
        have hpm : m < p := (Finset.mem_Ioc.mp hp).1
        have e : |(p : ℤ) - (m : ℤ)| = (p : ℤ) - m := abs_of_nonneg (by omega)
        rw [e]
        ring
      · rw [if_neg hc]
        have he : Finset.Ioc m j = ∅ := Finset.Ioc_eq_empty (by omega)
        simp [he]
    rw [hmid, hleft, hright]
    ring
  have hcost : cost w n i j =
      (if i ≤ m - 1 then
        (m : ℤ) * (Wpre w (m - 1) - Wpre w (i - 1)) - (XWpre w (m - 1) - XWpre w (i - 1))
       else 0) +
      (if m + 1 ≤ j then
        (XWpre w j - XWpre w m) - (m : ℤ) * (Wpre w j - Wpre w m)
       else 0) := by
    simp only [cost, costCore, if_pos (show 1 ≤ i ∧ i ≤ j ∧ j ≤ n from ⟨h1, h2, h3⟩), ← hm]
  rw [hcost, key]

/-- The objective does not decrease when the server moves right from the
weighted median. -/
lemma sumDist_median_le_right (w : ℕ → ℕ) {i j : ℕ} (h1 : 1 ≤ i) (h2 : i ≤ j) :
    ∀ e, find_weighted_median i j (Wpre w) + e ≤ j →
      sumDist w i j (find_weighted_median i j (Wpre w)) ≤
        sumDist w i j (find_weighted_median i j (Wpre w) + e) := by
  obtain ⟨hm1, hm2, -, -⟩ := find_weighted_median_spec w h1 h2
  set m := find_weighted_median i j (Wpre w) with hm
  intro e
  induction e with
  | zero => intro _; simp
  | succ e ih =>
    intro he
    have hstep := sumDist_succ w h1 (show i ≤ m + e + 1 by omega) (show m + e ≤ j by omega)
    have hmono : Wpre w m ≤ Wpre w (m + e) := Wpre_mono w (by omega)
    have hhalf := median_half_ge w h1 h2
    rw [← hm] at hhalf
    have : sumDist w i j (m + e) ≤ sumDist w i j (m + e + 1) := by linarith
    calc sumDist w i j m ≤ sumDist w i j (m + e) := ih (by omega)
      _ ≤ sumDist w i j (m + e + 1) := this

/-- The objective strictly decreases when the server moves right while still
strictly left of the weighted median; hence the median value is a lower
bound on the left side. -/
lemma sumDist_median_le_left (w : ℕ → ℕ) {i j : ℕ} (h1 : 1 ≤ i) (h2 : i ≤ j) :
    ∀ d c, i ≤ c → c + d = find_weighted_median i j (Wpre w) →
      sumDist w i j (find_weighted_median i j (Wpre w)) ≤ sumDist w i j c := by
  obtain ⟨hm1, hm2, -, -⟩ := find_weighted_median_spec w h1 h2
  set m := find_weighted_median i j (Wpre w) with hm
  intro d
  induction d with
  | zero =>
    intro c _ hc
    simp only [Nat.add_zero] at hc
    rw [hc]
  | succ d ih =>
    intro c hc1 hc2
    have hlt : 2 * Wpre w c < Wpre w (i - 1) + Wpre w j := by
      have := before_median_half_lt w h1 h2 hc1 (show c < find_weighted_median i j (Wpre w) by omega)
      exact this
    have hstep := sumDist_succ w h1 (show i ≤ c + 1 by omega) (show c ≤ j by omega)
    have hdown : sumDist w i j (c + 1) ≤ sumDist w i j c := by linarith
    calc sumDist w i j m ≤ sumDist w i j (c + 1) := ih (c + 1) (by omega) (by omega)
      _ ≤ sumDist w i j c := hdown

/-- The weighted median minimises the total weighted distance over all
candidate server positions of the interval. -/
lemma sumDist_median_le (w : ℕ → ℕ) {i j c : ℕ} (h1 : 1 ≤ i) (h2 : i ≤ j)
    (hc1 : i ≤ c) (hc2 : c ≤ j) :
    sumDist w i j (find_weighted_median i j (Wpre w)) ≤ sumDist w i j c := by
  obtain ⟨hm1, hm2, -, -⟩ := find_weighted_median_spec w h1 h2
  rcases le_total c (find_weighted_median i j (Wpre w)) with h | h
  · exact sumDist_median_le_left w h1 h2 (find_weighted_median i j (Wpre w) - c) c hc1 (by omega)
  · have := sumDist_median_le_right w h1 h2 (c - find_weighted_median i j (Wpre w)) (by omega)
    rwa [show find_weighted_median i j (Wpre w) + (c - find_weighted_median i j (Wpre w)) = c
      from by omega] at this

/-- The interval cost is a lower bound on the objective at every candidate
server position of the interval. -/
lemma cost_le_sumDist (w : ℕ → ℕ) {n i j c : ℕ} (h1 : 1 ≤ i) (h2 : i ≤ j) (h3 : j ≤ n)
    (hc1 : i ≤ c) (hc2 : c ≤ j) :
    cost w n i j ≤ sumDist w i j c := by
  rw [cost_eq_sumDist w h1 h2 h3]
  exact sumDist_median_le w h1 h2 hc1 hc2

/-- C1: for every `n ≥ 1`, non-negative weight sequence, and interval
`1 ≤ i ≤ j ≤ n`, the table entry `cost[i][j]` equals the brute-force minimum
over server positions `m ∈ [i, j]` of `Σ_{p=i}^{j} w[p] * |p - m|`. -/
theorem cost_eq_bruteforce_min (n : ℕ) (w : ℕ → ℕ) (i j : ℕ)
    (h1 : 1 ≤ i) (h2 : i ≤ j) (h3 : j ≤ n) :
    cost w n i j = (Finset.Icc i j).inf' (Finset.nonempty_Icc.mpr h2)
      (fun m => ∑ p ∈ Finset.Icc i j, (w p : ℤ) * |(p : ℤ) - (m : ℤ)|) := by
  apply le_antisymm
  · apply Finset.le_inf'
    intro b hb
    rw [Finset.mem_Icc] at hb
    exact cost_le_sumDist w h1 h2 h3 hb.1 hb.2
  · rw [cost_eq_sumDist w h1 h2 h3]
    obtain ⟨hm1, hm2, -, -⟩ := find_weighted_median_spec w h1 h2
    exact Finset.inf'_le _ (Finset.mem_Icc.mpr ⟨hm1, hm2⟩)

/-- C5: on the prefix sums of a non-negative weight sequence,
`find_weighted_median(i, j, W)` returns the smallest position `p ∈ [i, j]`
with `W[p] ≥ W[i-1] + (W[j] - W[i-1] + 1) // 2`. -/
theorem find_weighted_median_is_least (n : ℕ) (w : ℕ → ℕ) (i j : ℕ)
    (h1 : 1 ≤ i) (h2 : i ≤ j) (h3 : j ≤ n) :
    find_weighted_median i j (Wpre w) ∈ Finset.Icc i j ∧
    Wpre w (i - 1) + (Wpre w j - Wpre w (i - 1) + 1).fdiv 2 ≤
      Wpre w (find_weighted_median i j (Wpre w)) ∧
    ∀ p ∈ Finset.Icc i j,
      Wpre w (i - 1) + (Wpre w j - Wpre w (i - 1) + 1).fdiv 2 ≤ Wpre w p →
      find_weighted_median i j (Wpre w) ≤ p := by
  obtain ⟨a1, a2, a3, a4⟩ := find_weighted_median_spec w h1 h2
  exact ⟨Finset.mem_Icc.mpr ⟨a1, a2⟩, a3, fun p hp h => a4 p (Finset.mem_Icc.mp hp).1 h⟩

/-! The DP minimisation loop: characterisation of `minFold`. -/

/-- The loop `for i in range(s, s+len): if f(i) < best: best, best_i = f(i), i`
either sees only `inf` values (and keeps `(inf, -1)`), or returns the minimum
value together with the first — i.e. smallest — index attaining it. -/
lemma minFold_spec (f : ℕ → WithTop ℤ) (s : ℕ) :
    ∀ len,
      ((minFold f (List.range' s len)).1 = ⊤ ∧ (minFold f (List.range' s len)).2 = -1 ∧
        ∀ x, s ≤ x → x < s + len → f x = ⊤) ∨
      (∃ x₀, s ≤ x₀ ∧ x₀ < s + len ∧ (minFold f (List.range' s len)).1 = f x₀ ∧
        (minFold f (List.range' s len)).2 = (x₀ : ℤ) ∧ f x₀ ≠ ⊤ ∧
        (∀ y, s ≤ y → y < s + len → f x₀ ≤ f y) ∧
        ∀ y, s ≤ y → y < s + len → y < x₀ → f x₀ < f y) := by
  intro len
  induction len with
  | zero =>
    left
    refine ⟨rfl, rfl, fun x hx1 hx2 => ?_⟩
    omega
  | succ len ih =>
    have hconcat : List.range' s (len + 1) = List.range' s len ++ [s + len] := by
      simpa using @List.range'_concat 1 s len
    have hfold : minFold f (List.range' s (len + 1)) =
        if f (s + len) < (minFold f (List.range' s len)).1
        then (f (s + len), ((s + len : ℕ) : ℤ))
        else minFold f (List.range' s len) := by
      rw [hconcat]
      simp only [minFold, List.foldl_append, List.foldl_cons, List.foldl_nil]
    rcases ih with ⟨h1, h2, hall⟩ | ⟨x₀, hx1, hx2, he1, he2, hne, hmin, hfirst⟩
    · by_cases hlt : f (s + len) < (minFold f (List.range' s len)).1
      · right
        have hlt' : f (s + len) < ⊤ := h1 ▸ hlt
        refine ⟨s + len, by omega, by omega, ?_, ?_, ?_, ?_, ?_⟩
        · rw [hfold, if_pos hlt]
        · rw [hfold, if_pos hlt]
        · exact WithTop.lt_top_iff_ne_top.mp hlt'
        · intro y hy1 hy2
          rcases (show y < s + len ∨ y = s + len from by omega) with h | rfl
          · rw [hall y hy1 h]
            exact le_top
          · exact le_refl _
        · intro y hy1 hy2 hy3
          rw [hall y hy1 (by omega)]
          exact hlt'
      · left
        have htop : f (s + len) = ⊤ := by
          rw [h1] at hlt
          rwa [WithTop.lt_top_iff_ne_top, not_ne_iff] at hlt
        refine ⟨?_, ?_, fun x hx1 hx2 => ?_⟩
        · rw [hfold, if_neg hlt, h1]
        · rw [hfold, if_neg hlt, h2]
        · rcases (show x < s + len ∨ x = s + len from by omega) with h | rfl
          · exact hall x hx1 h
          · exact htop
    · by_cases hlt : f (s + len) < (minFold f (List.range' s len)).1
      · right
        have hlt' : f (s + len) < f x₀ := he1 ▸ hlt
        refine ⟨s + len, by omega, by omega, ?_, ?_, ?_, ?_, ?_⟩
        · rw [hfold, if_pos hlt]
        · rw [hfold, if_pos hlt]
        · exact WithTop.lt_top_iff_ne_top.mp (lt_of_lt_of_le hlt' le_top)
        · intro y hy1 hy2
          rcases (show y < s + len ∨ y = s + len from by omega) with h | rfl
          · exact le_of_lt (lt_of_lt_of_le hlt' (hmin y hy1 h))
          · exact le_refl _
        · intro y hy1 hy2 hy3
          exact lt_of_lt_of_le hlt' (hmin y hy1 (by omega))
      · right
        have hge : f x₀ ≤ f (s + len) := not_lt.mp (he1 ▸ hlt)
        refine ⟨x₀, hx1, by omega, ?_, ?_, hne, ?_, ?_⟩
        · rw [hfold, if_neg hlt, he1]
        · rw [hfold, if_neg hlt, he2]
        · intro y hy1 hy2
          rcases (show y < s + len ∨ y = s + len from by omega) with h | rfl
          · exact hmin y hy1 h
          · exact hge
        · intro y hy1 hy2 hy3
          exact hfirst y hy1 (by omega) hy3

/-! Properties of the DP and choice tables. -/

lemma DP_one (w : ℕ → ℕ) (n j : ℕ) (h1 : 1 ≤ j) (h3 : j ≤ n) :
    DP w n 1 j = ((cost w n 1 j : ℤ) : WithTop ℤ) := by
  simp only [DP]
  rw [if_pos ⟨h1, h3⟩]

lemma DP_eq_fold (w : ℕ → ℕ) (n t j : ℕ) (h2 : t + 2 ≤ j) (h3 : j ≤ n) :
    DP w n (t + 2) j =
      (minFold (fun i => DP w n (t + 1) i + ((cost w n (i + 1) j : ℤ) : WithTop ℤ))
        (List.range' (t + 1) (j - (t + 1)))).1 := by
  simp only [DP]
  rw [if_pos ⟨h2, h3⟩]

lemma choice_eq_fold (w : ℕ → ℕ) (n t j : ℕ) (h2 : t + 2 ≤ j) (h3 : j ≤ n) :
    choice w n (t + 2) j =
      (minFold (fun i => DP w n (t + 1) i + ((cost w n (i + 1) j : ℤ) : WithTop ℤ))
        (List.range' (t + 1) (j - (t + 1)))).2 := by
  simp only [choice]
  rw [if_pos ⟨h2, h3⟩]

/-- Between `t` servers and `t ≤ j ≤ n` clients the DP value is finite. -/
lemma DP_ne_top (w : ℕ → ℕ) (n : ℕ) :
    ∀ t j, 1 ≤ t → t ≤ j → j ≤ n → DP w n t j ≠ ⊤ := by
  intro t
  induction t using Nat.strong_induction_on with
  | _ t ih =>
    intro j h1 h2 h3
    rcases t with _ | _ | t'
    · omega
    · rw [DP_one w n j (by omega) h3]
      exact WithTop.coe_ne_top
    · rw [DP_eq_fold w n t' j h2 h3]
      obtain hl | hr := minFold_spec
        (fun i => DP w n (t' + 1) i + ((cost w n (i + 1) j : ℤ) : WithTop ℤ))
        (t' + 1) (j - (t' + 1))
      · exfalso
        have htop := hl.2.2 (j - 1) (by omega) (by omega)
        simp only at htop
        have hne : DP w n (t' + 1) (j - 1) + ((cost w n ((j - 1) + 1) j : ℤ) : WithTop ℤ) ≠ ⊤ := by
          rw [WithTop.add_ne_top]
          exact ⟨ih (t' + 1) (by omega) (j - 1) (by omega) (by omega) (by omega), WithTop.coe_ne_top⟩
        exact hne htop
      · obtain ⟨x₀, -, -, he1, -, hnetop, -, -⟩ := hr
        rw [he1]
        exact hnetop

/-- The written cells of `DP` and `choice` for `t ≥ 2`: the choice index lies
in `[t-1, j-1]`, attains the DP value, the DP value is a lower bound over all
candidate split points, and every smaller split point is strictly worse. -/
lemma DP_choice_spec (w : ℕ → ℕ) (n t j : ℕ) (h2 : t + 2 ≤ j) (h3 : j ≤ n) :
    ∃ i₀ : ℕ, t + 1 ≤ i₀ ∧ i₀ < j ∧ choice w n (t + 2) j = (i₀ : ℤ) ∧
      DP w n (t + 2) j = DP w n (t + 1) i₀ + ((cost w n (i₀ + 1) j : ℤ) : WithTop ℤ) ∧
      (∀ i, t + 1 ≤ i → i < j →
        DP w n (t + 2) j ≤ DP w n (t + 1) i + ((cost w n (i + 1) j : ℤ) : WithTop ℤ)) ∧
      ∀ i, t + 1 ≤ i → i < i₀ →
        DP w n (t + 2) j < DP w n (t + 1) i + ((cost w n (i + 1) j : ℤ) : WithTop ℤ) := by
  obtain hl | hr := minFold_spec
    (fun i => DP w n (t + 1) i + ((cost w n (i + 1) j : ℤ) : WithTop ℤ))
    (t + 1) (j - (t + 1))
  · exfalso
    have htop := hl.2.2 (j - 1) (by omega) (by omega)
    simp only at htop
    have hne : DP w n (t + 1) (j - 1) + ((cost w n ((j - 1) + 1) j : ℤ) : WithTop ℤ) ≠ ⊤ := by
      rw [WithTop.add_ne_top]
      exact ⟨DP_ne_top w n (t + 1) (j - 1) (by omega) (by omega) (by omega), WithTop.coe_ne_top⟩
    exact hne htop
  · obtain ⟨x₀, hx1, hx2, he1, he2, hnetop, hmin, hfirst⟩ := hr
    have hsl : (t + 1) + (j - (t + 1)) = j := by omega
    rw [hsl] at hx2 hmin hfirst
    refine ⟨x₀, hx1, hx2, ?_, ?_, ?_, ?_⟩
    · rw [choice_eq_fold w n t j h2 h3, he2]
    · rw [DP_eq_fold w n t j h2 h3, he1]
    · intro i hi1 hi2
      rw [DP_eq_fold w n t j h2 h3, he1]
      exact hmin i hi1 hi2
    · intro i hi1 hi2
      rw [DP_eq_fold w n t j h2 h3, he1]
      exact hfirst i hi1 (by omega) hi2

/-- C2: for `2 ≤ t ≤ k` and `t ≤ j ≤ n`, the DP stage sets `DP[t][j]` to the
minimum over `i ∈ [t-1, j-1]` of `DP[t-1][i] + cost[i+1][j]`, and `choice[t][j]`
to the smallest index attaining that minimum (first-found wins under the
strict `<` comparison). -/
theorem DP_recurrence_and_choice (n k t j : ℕ) (w : ℕ → ℕ)
    (h2 : 2 ≤ t) (htk : t ≤ k) (htj : t ≤ j) (hjn : j ≤ n) :
    DP w n t j = (Finset.Icc (t - 1) (j - 1)).inf'
      (Finset.nonempty_Icc.mpr (by omega))
      (fun i => DP w n (t - 1) i + ((cost w n (i + 1) j : ℤ) : WithTop ℤ)) ∧
    ∃ i₀ : ℕ, choice w n t j = (i₀ : ℤ) ∧ i₀ ∈ Finset.Icc (t - 1) (j - 1) ∧
      DP w n t j = DP w n (t - 1) i₀ + ((cost w n (i₀ + 1) j : ℤ) : WithTop ℤ) ∧
      ∀ i ∈ Finset.Icc (t - 1) (j - 1),
        DP w n (t - 1) i + ((cost w n (i + 1) j : ℤ) : WithTop ℤ) = DP w n t j → i₀ ≤ i := by
  obtain ⟨t', rfl⟩ : ∃ t', t = t' + 2 := ⟨t - 2, by omega⟩
  obtain ⟨i₀, hi1, hi2, hc, hdp, hmin, hfirst⟩ := DP_choice_spec w n t' j (by omega) hjn
  constructor
  · apply le_antisymm
    · apply Finset.le_inf'
      intro b hb
      rw [Finset.mem_Icc] at hb
      exact hmin b (by omega) (by omega)
    · have hmem : i₀ ∈ Finset.Icc (t' + 1) (j - 1) := Finset.mem_Icc.mpr ⟨by omega, by omega⟩
      rw [hdp]
      exact Finset.inf'_le _ hmem
  · refine ⟨i₀, hc, Finset.mem_Icc.mpr ⟨by omega, by omega⟩, hdp, ?_⟩
    intro i hi hattain
    rw [Finset.mem_Icc] at hi
    by_contra hlt
    have hattain2 : DP w n (t' + 1) i + ((cost w n (i + 1) j : ℤ) : WithTop ℤ) =
        DP w n (t' + 2) j := hattain
    have := hfirst i (by omega) (by omega)
    rw [hattain2] at this
    exact lt_irrefl _ this

/-! Monotonicity of the interval cost and of the DP table, and the diagonal. -/

/-- A one-client interval costs nothing: its median is the client itself. -/
lemma cost_diag (w : ℕ → ℕ) {n j : ℕ} (h1 : 1 ≤ j) (h3 : j ≤ n) :
    cost w n j j = 0 := by
  have hm : find_weighted_median j j (Wpre w) = j := by
    unfold find_weighted_median
    rw [show j + 1 - j = 1 from by omega]
    show (if Wpre w (j - 1) + (Wpre w j - Wpre w (j - 1) + 1).fdiv 2 ≤ Wpre w j then j
      else scanMedian (Wpre w) (Wpre w (j - 1) + (Wpre w j - Wpre w (j - 1) + 1).fdiv 2) j (j + 1) 0) = j
    split
    · rfl
    · rfl
  simp only [cost, if_pos (show 1 ≤ j ∧ j ≤ j ∧ j ≤ n from ⟨h1, le_refl j, h3⟩), costCore, hm]
  rw [if_neg (by omega), if_neg (by omega)]
  norm_num

/-- Extending an interval one client to the right cannot lower its cost. -/
lemma cost_mono_right (w : ℕ → ℕ) {n i j : ℕ} (h1 : 1 ≤ i) (h2 : i ≤ j) (h3 : j + 1 ≤ n) :
    cost w n i j ≤ cost w n i (j + 1) := by
  obtain ⟨hm1, hm2, -, -⟩ := find_weighted_median_spec w h1 (show i ≤ j + 1 by omega)
  set m' := find_weighted_median i (j + 1) (Wpre w) with hm'
  rw [cost_eq_sumDist w h1 (by omega) h3, ← hm']
  have hc : cost w n i j ≤ sumDist w i j (min m' j) :=
    cost_le_sumDist w h1 h2 (by omega) (le_min hm1 h2) (min_le_right _ _)
  have h4 : sumDist w i j (min m' j) ≤ sumDist w i j m' := by
    unfold sumDist
    apply Finset.sum_le_sum
    intro p hp
    have hpj : p ≤ j := (Finset.mem_Icc.mp hp).2
    apply mul_le_mul_of_nonneg_left _ (by positivity)
    rcases le_total m' j with h | h
    · rw [min_eq_left h]
    · rw [min_eq_right h]
      rw [abs_of_nonpos (by omega), abs_of_nonpos (by omega)]
      omega
  have h5 : sumDist w i j m' ≤ sumDist w i (j + 1) m' := by
    unfold sumDist
    rw [Finset.sum_Icc_succ_top (show i ≤ j + 1 by omega)]
    have hterm : 0 ≤ (w (j + 1) : ℤ) * |((j + 1 : ℕ) : ℤ) - (m' : ℤ)| := by positivity
    linarith
  linarith

/-- Joint monotonicity of the DP table: for `t ≥ 1`, `DP[t][j]` is
non-decreasing in `j` on the written range, and adding one server cannot
increase `DP[t][j]`. -/
lemma DP_mono (w : ℕ → ℕ) (n : ℕ) :
    ∀ t, 1 ≤ t →
      (∀ j, t ≤ j → j + 1 ≤ n → DP w n t j ≤ DP w n t (j + 1)) ∧
      (∀ j, t + 1 ≤ j → j ≤ n → DP w n (t + 1) j ≤ DP w n t j) := by
  intro t
  induction t with
  | zero => omega
  | succ t ih =>
    intro h1
    rcases t with _ | t'
    · have hA : ∀ j, 1 ≤ j → j + 1 ≤ n → DP w n 1 j ≤ DP w n 1 (j + 1) := by
        intro j hj1 hj2
        rw [DP_one w n j hj1 (by omega), DP_one w n (j + 1) (by omega) hj2]
        exact WithTop.coe_le_coe.mpr (cost_mono_right w (le_refl 1) hj1 hj2)
      refine ⟨hA, ?_⟩
      intro j hj1 hj2
      obtain ⟨-, -, -, -, -, hmin, -⟩ := DP_choice_spec w n 0 j (by omega) hj2
      have hle := hmin (j - 1) (by omega) (by omega)
      rw [show (j - 1) + 1 = j from by omega, cost_diag w (by omega) hj2] at hle
      rw [WithTop.coe_zero, add_zero] at hle
      refine le_trans hle ?_
      have := hA (j - 1) (by omega) (by omega)
      rwa [show (j - 1) + 1 = j from by omega] at this
    · obtain ⟨ihA, ihB⟩ := ih (by omega)
      have hA : ∀ j, t' + 2 ≤ j → j + 1 ≤ n → DP w n (t' + 2) j ≤ DP w n (t' + 2) (j + 1) := by
        intro j hj1 hj2
        obtain ⟨is, his1, his2, -, hdp, -, -⟩ := DP_choice_spec w n t' (j + 1) (by omega) hj2
        obtain ⟨-, -, -, -, -, hmin, -⟩ := DP_choice_spec w n t' j hj1 (by omega)
        rcases (show is < j ∨ is = j from by omega) with hcase | rfl
        · have hle := hmin is his1 hcase
          rw [hdp]
          refine le_trans hle ?_
          exact add_le_add_left
            (WithTop.coe_le_coe.mpr (cost_mono_right w (by omega) (by omega) hj2)) _
        · rw [hdp, cost_diag w (by omega) hj2, WithTop.coe_zero, add_zero]
          exact ihB _ hj1 (by omega)
      refine ⟨hA, ?_⟩
      intro j hj1 hj2
      obtain ⟨-, -, -, -, -, hmin, -⟩ := DP_choice_spec w n (t' + 1) j (by omega) hj2
      have hle := hmin (j - 1) (by omega) (by omega)
      rw [show (j - 1) + 1 = j from by omega, cost_diag w (by omega) hj2] at hle
      rw [WithTop.coe_zero, add_zero] at hle
      refine le_trans hle ?_
      have := hA (j - 1) (by omega) (by omega)
      rwa [show (j - 1) + 1 = j from by omega] at this

/-- Covering `t` clients with `t` servers is free. -/
lemma DP_diag (w : ℕ → ℕ) (n : ℕ) : ∀ t, 1 ≤ t → t ≤ n → DP w n t t = 0 := by
  intro t
  induction t with
  | zero => omega
  | succ t ih =>
    intro h1 h2
    rcases t with _ | t'
    · rw [DP_one w n 1 (le_refl _) h2, cost_diag w (le_refl 1) h2]
      exact WithTop.coe_zero
    · obtain ⟨i₀, hi1, hi2, -, hdp, -, -⟩ := DP_choice_spec w n t' (t' + 2) (le_refl _) h2
      have hi : i₀ = t' + 1 := by omega
      subst hi
      rw [hdp, ih (by omega) (by omega), cost_diag w (by omega) h2]
      simp

/-- C7: for every fixed `n ≥ 1` and weights, the returned minimum total cost
`DP[t][n]` is non-increasing as the number of servers `t` grows from 1 to
`n`, and with `n` servers it is zero. -/
theorem DP_nonincreasing_in_servers (n : ℕ) (w : ℕ → ℕ) (hn : 1 ≤ n) :
    (∀ t, 1 ≤ t → t < n → DP w n (t + 1) n ≤ DP w n t n) ∧ DP w n n n = 0 := by
  constructor
  · intro t h1 h2
    exact (DP_mono w n t h1).2 n (by omega) (le_refl n)
  · exact DP_diag w n n hn (le_refl n)

/-! Backtracking. -/

lemma choice_one (w : ℕ → ℕ) (n j : ℕ) (h1 : 1 ≤ j) (h3 : j ≤ n) :
    choice w n 1 j = 0 := by
  simp only [choice]
  rw [if_pos ⟨h1, h3⟩]

lemma backtrackAux_succ (ch : ℕ → ℕ → ℤ) (n t : ℕ) (j : ℤ) :
    backtrackAux ch n (t + 1) j =
      (ch (t + 1) (if j < 0 then j + (n + 1) else j).toNat + 1, j) ::
        backtrackAux ch n t (ch (t + 1) (if j < 0 then j + (n + 1) else j).toNat) := rfl

/-- One backtracking step from a non-negative index has no wrap-around. -/
lemma backtrackAux_nat (ch : ℕ → ℕ → ℤ) (n t : ℕ) (j : ℕ) :
    backtrackAux ch n (t + 1) (j : ℤ) =
      (ch (t + 1) j + 1, (j : ℤ)) :: backtrackAux ch n t (ch (t + 1) j) := by
  rw [backtrackAux_succ, if_neg (by omega : ¬ ((j : ℤ) < 0)), Int.toNat_natCast]

/-- The backtracking loop started at `(t+1, j)` with `t + 1 ≤ j ≤ n` emits
`t + 1` segments `(L, R)` with `1 ≤ L ≤ R ≤ n`, the first (server `t+1`)
ending at `j`, the last (server 1) starting at 1, consecutive segments
adjacent, and their interval costs summing to `DP[t+1][j]`. -/
lemma backtrack_spec (w : ℕ → ℕ) (n : ℕ) :
    ∀ t j, t + 1 ≤ j → j ≤ n →
      (backtrackAux (choice w n) n (t + 1) (j : ℤ)).length = t + 1 ∧
      (∀ s ∈ backtrackAux (choice w n) n (t + 1) (j : ℤ),
        1 ≤ s.1 ∧ s.1 ≤ s.2 ∧ s.2 ≤ (n : ℤ)) ∧
      (∃ L rest, backtrackAux (choice w n) n (t + 1) (j : ℤ) = (L, (j : ℤ)) :: rest) ∧
      ((backtrackAux (choice w n) n (t + 1) (j : ℤ)).map Prod.fst).getLast? = some 1 ∧
      List.Chain' (fun a b => b.2 + 1 = a.1) (backtrackAux (choice w n) n (t + 1) (j : ℤ)) ∧
      DP w n (t + 1) j =
        ((((backtrackAux (choice w n) n (t + 1) (j : ℤ)).map
          fun s => cost w n s.1.toNat s.2.toNat).sum : ℤ) : WithTop ℤ) := by
  intro t
  induction t with
  | zero =>
    intro j h1 h2
    rw [backtrackAux_nat, choice_one w n j h1 h2]
    have htail : backtrackAux (choice w n) n 0 (0 : ℤ) = [] := rfl
    rw [htail]
    refine ⟨rfl, ?_, ⟨(0 : ℤ) + 1, [], rfl⟩, ?_, ?_, ?_⟩
    · intro s hs
      rcases List.mem_cons.mp hs with rfl | hs'
      · exact ⟨by omega, by omega, by omega⟩
      · simp at hs'
    · simp
    · simp
    · rw [DP_one w n j h1 h2]
      norm_num
  | succ t ih =>
    intro j h1 h2
    obtain ⟨i₀, hi1, hi2, hc, hdp, -, -⟩ := DP_choice_spec w n t j h1 h2
    have hc' : choice w n (t + 1 + 1) j = (i₀ : ℤ) := hc
    have hdp' : DP w n (t + 1 + 1) j =
        DP w n (t + 1) i₀ + ((cost w n (i₀ + 1) j : ℤ) : WithTop ℤ) := hdp
    rw [backtrackAux_nat, hc']
    obtain ⟨ihlen, ihmem, ⟨L', rest, hrest⟩, ihlast, ihchain, ihsum⟩ :=
      ih i₀ (by omega) (by omega)
    refine ⟨?_, ?_, ⟨(i₀ : ℤ) + 1, _, rfl⟩, ?_, ?_, ?_⟩
    · rw [List.length_cons, ihlen]
    · intro s hs
      rcases List.mem_cons.mp hs with rfl | hs'
      · exact ⟨by omega, by omega, by omega⟩
      · exact ihmem s hs'
    · rw [hrest] at ihlast ⊢
      simp only [List.map_cons, List.getLast?_cons_cons] at ihlast ⊢
      exact ihlast
    · rw [hrest] at ihchain ⊢
      rw [List.chain'_cons]
      exact ⟨rfl, ihchain⟩
    · rw [hdp', ihsum, List.map_cons, List.sum_cons]
      have e1 : ((i₀ : ℤ) + 1).toNat = i₀ + 1 := by omega
      have e2 : ((j : ℤ)).toNat = j := Int.toNat_natCast j
      rw [e1, e2, ← WithTop.coe_add]
      exact congrArg _ (add_comm _ _)

/-- C4: for feasible `1 ≤ k ≤ n`, the returned segments are exactly `k`
pairs that partition `[1, n]` left to right: the first starts at 1, the last
ends at `n`, every pair satisfies `1 ≤ L ≤ R ≤ n`, and each next segment
starts right after the previous one ends. -/
theorem segments_partition (n k : ℕ) (w : ℕ → ℕ) (hk : 1 ≤ k) (hkn : k ≤ n) :
    (fast_response_k_server n k w).2.2.length = k ∧
    (∀ s ∈ (fast_response_k_server n k w).2.2, 1 ≤ s.1 ∧ s.1 ≤ s.2 ∧ s.2 ≤ (n : ℤ)) ∧
    ((fast_response_k_server n k w).2.2.map Prod.fst).head? = some 1 ∧
    ((fast_response_k_server n k w).2.2.map Prod.snd).getLast? = some (n : ℤ) ∧
    List.Chain' (fun a b => a.2 + 1 = b.1) (fast_response_k_server n k w).2.2 := by
  obtain ⟨k', rfl⟩ : ∃ k', k = k' + 1 := ⟨k - 1, by omega⟩
  obtain ⟨hlen, hmem, ⟨L, rest, hrest⟩, hlast, hchain, -⟩ :=
    backtrack_spec w n k' n (by omega) (le_refl n)
  have hseg : (fast_response_k_server n (k' + 1) w).2.2 =
      (backtrackAux (choice w n) n (k' + 1) (n : ℤ)).reverse := rfl
  rw [hseg]
  refine ⟨?_, ?_, ?_, ?_, ?_⟩
  · rw [List.length_reverse, hlen]
  · intro s hs
    exact hmem s (List.mem_reverse.mp hs)
  · rw [List.map_reverse, List.head?_reverse]
    exact hlast
  · rw [List.map_reverse, List.getLast?_reverse, hrest]
    simp
  · rw [List.chain'_reverse]
    exact hchain.imp (fun a b h => h)

/-- C6: for feasible `1 ≤ k ≤ n`, the returned `min_total_cost` equals,
exactly as an integer, the sum of the interval costs of the returned
segments. -/
theorem segments_cost_sum (n k : ℕ) (w : ℕ → ℕ) (hk : 1 ≤ k) (hkn : k ≤ n) :
    (fast_response_k_server n k w).1 =
      ((((fast_response_k_server n k w).2.2.map
        fun s => cost w n s.1.toNat s.2.toNat).sum : ℤ) : WithTop ℤ) := by
  obtain ⟨k', rfl⟩ : ∃ k', k = k' + 1 := ⟨k - 1, by omega⟩
  obtain ⟨-, -, -, -, -, hsum⟩ := backtrack_spec w n k' n (by omega) (le_refl n)
  have h1 : (fast_response_k_server n (k' + 1) w).1 = DP w n (k' + 1) n := rfl
  have h2 : (fast_response_k_server n (k' + 1) w).2.2 =
      (backtrackAux (choice w n) n (k' + 1) (n : ℤ)).reverse := rfl
  rw [h1, h2, List.map_reverse, List.sum_reverse, hsum]

/-! Concrete scenarios. -/

/-- The all-ones traffic array of length 4 (1-indexed, index 0 unused) of the
spec's concrete scenario. -/
def wUnit : ℕ → ℕ := fun i => if 1 ≤ i ∧ i ≤ 4 then 1 else 0

/-- A one-client traffic array `w = [_, 5]`. -/
def wSingle : ℕ → ℕ := fun i => if i = 1 then 5 else 0

/-- C3 is violated by the code: with `k = 2 > n = 1` the reference
implementation does not fail.  It returns `inf` as the cost together with a
malformed segment list read through an uninitialised `choice` entry and
Python's negative indexing, and the `server_positions` sequence silently
embeds an absent entry (`none`). -/
theorem k_gt_n_returns_result_with_none :
    fast_response_k_server 1 2 wSingle =
      ((⊤ : WithTop ℤ), [none, some 0], [((1 : ℤ), (-1 : ℤ)), ((0 : ℤ), (1 : ℤ))]) := by
  decide

/-- C8: the concrete scenario `n = 4`, `k = 2`, `w = [_,1,1,1,1]` returns
`min_total_cost = 2`, `server_positions = [1, 3]`, and
`segments = [(1,1), (2,4)]`. -/
theorem example_n4_k2 :
    fast_response_k_server 4 2 wUnit =
      (((2 : ℤ) : WithTop ℤ), [some 1, some 3],
        [((1 : ℤ), (1 : ℤ)), ((2 : ℤ), (4 : ℤ))]) := by
  decide

/-! Frame condition on the weight array. -/

/-- State-passing form of the call: the weight array is the only
caller-owned data the core touches, and the only statements that mention it
are the reads `w[i]` in the prefix-sum loop, so the embedding threads the
array through the call and hands it back alongside the result triple. -/
def fast_response_k_server_st (n k : ℕ) (w : ℕ → ℕ) :
    (WithTop ℤ × List (Option ℕ) × List (ℤ × ℤ)) × (ℕ → ℕ) :=
  (fast_response_k_server n k w, w)

/-- C10: after the call returns, every entry of the weight array equals its
value before the call. -/
theorem weights_unchanged (n k : ℕ) (w : ℕ → ℕ) (i : ℕ) :
    (fast_response_k_server_st n k w).2 i = w i := rfl

end Fastkserver

/-!
Embedding of `src/unnamed/part_000` ("Fast k server.py").  The file carries
the same two functions; its table initialisations build the `(n+1) × (n+1)`
zero tables and the `(k+1) × (n+1)` `inf`/`-1` tables by explicit row-append
loops, which the guarded functional definitions below reproduce exactly as
for `src/Fastkserver.py`.
-/

namespace Part000

/-- Prefix sums of the traffic weights: STEP 1 of `part_000`'s
`fast_response_k_server` (`W[i] = W[i-1] + w[i]`). -/
def Wpre (w : ℕ → ℕ) : ℕ → ℤ
  | 0 => 0
  | i + 1 => Wpre w i + w (i + 1)

/-- Prefix sums of position times weight: STEP 1 of `part_000`'s
`fast_response_k_server` (`XW[i] = XW[i-1] + i * w[i]`). -/
def XWpre (w : ℕ → ℕ) : ℕ → ℤ
  | 0 => 0
  | i + 1 => XWpre w i + (i + 1 : ℕ) * w (i + 1)

/-- The linear scan of `part_000`'s "Weighted Median Finder". -/
def scanMedian (W : ℕ → ℤ) (target : ℤ) : ℕ → ℕ → ℕ → ℕ
  | m, _, 0 => m
  | m, lo, len + 1 => if target ≤ W lo then lo else scanMedian W target m (lo + 1) len

/-- The function `find_weighted_median(i, j, W)` of `part_000`. -/
def find_weighted_median (i j : ℕ) (W : ℕ → ℤ) : ℕ :=
  scanMedian W (W (i - 1) + (W j - W (i - 1) + 1).fdiv 2) i i (j + 1 - i)

/-- The cell computation of STEP 2 of `part_000`: weighted median, left
cost, right cost. -/
def costCore (w : ℕ → ℕ) (i j : ℕ) : ℤ :=
  let W := Wpre w
  let XW := XWpre w
  let m := find_weighted_median i j W
  let Left : ℤ := if i ≤ m - 1 then
      (m : ℤ) * (W (m - 1) - W (i - 1)) - (XW (m - 1) - XW (i - 1)) else 0
  let Right : ℤ := if m + 1 ≤ j then
      (XW j - XW m) - (m : ℤ) * (W j - W m) else 0
  Left + Right

/-- The `cost` table of `part_000` (append-loop initialised to zero). -/
def cost (w : ℕ → ℕ) (n i j : ℕ) : ℤ :=
  if 1 ≤ i ∧ i ≤ j ∧ j ≤ n then costCore w i j else 0

/-- The `best_server` table of `part_000` (append-loop initialised to
zero). -/
def best_server (w : ℕ → ℕ) (n i j : ℕ) : ℕ :=
  if 1 ≤ i ∧ i ≤ j ∧ j ≤ n then find_weighted_median i j (Wpre w) else 0

/-- The inner minimisation loop of STEP 3 of `part_000`. -/
def minFold (f : ℕ → WithTop ℤ) (l : List ℕ) : WithTop ℤ × ℤ :=
  l.foldl (fun acc i => if f i < acc.1 then (f i, (i : ℤ)) else acc) (⊤, -1)

/-- The `DP` table of STEP 3 of `part_000` (append-loop initialised to
`inf`). -/
def DP (w : ℕ → ℕ) (n : ℕ) : ℕ → ℕ → WithTop ℤ
  | 0, j => if j = 0 then (0 : WithTop ℤ) else ⊤
  | 1, j => if 1 ≤ j ∧ j ≤ n then ((cost w n 1 j : ℤ) : WithTop ℤ) else ⊤
  | t + 2, j =>
    if t + 2 ≤ j ∧ j ≤ n then
      (minFold (fun i => DP w n (t + 1) i + ((cost w n (i + 1) j : ℤ) : WithTop ℤ))
        (List.range' (t + 1) (j - (t + 1)))).1
    else ⊤

/-- The `choice` table of STEP 3 of `part_000` (append-loop initialised to
`-1`). -/
def choice (w : ℕ → ℕ) (n : ℕ) : ℕ → ℕ → ℤ
  | 0, _ => -1
  | 1, j => if 1 ≤ j ∧ j ≤ n then 0 else -1
  | t + 2, j =>
    if t + 2 ≤ j ∧ j ≤ n then
      (minFold (fun i => DP w n (t + 1) i + ((cost w n (i + 1) j : ℤ) : WithTop ℤ))
        (List.range' (t + 1) (j - (t + 1)))).2
    else -1

/-- The backtracking loop of STEP 4 of `part_000`, with Python's
negative-index semantics for a negative loop index. -/
def backtrackAux (ch : ℕ → ℕ → ℤ) (n : ℕ) : ℕ → ℤ → List (ℤ × ℤ)
  | 0, _ => []
  | t + 1, j =>
    let jn : ℤ := if j < 0 then j + (n + 1) else j
    let i := ch (t + 1) jn.toNat
    (i + 1, j) :: backtrackAux ch n t i

/-- The function `fast_response_k_server(n, k, w)` of `part_000`. -/
def fast_response_k_server (n k : ℕ) (w : ℕ → ℕ) :
    WithTop ℤ × List (Option ℕ) × List (ℤ × ℤ) :=
  let min_total_cost := DP w n k n
  let segments := (backtrackAux (choice w n) n k (n : ℤ)).reverse
  let server_positions := segments.map fun s =>
    if s.1 ≤ s.2 then some (best_server w n s.1.toNat s.2.toNat) else none
  (min_total_cost, server_positions, segments)

end Part000

/-! Extensional equality of the two embedded copies. -/

lemma part000_Wpre_eq (w : ℕ → ℕ) : Part000.Wpre w = Fastkserver.Wpre w := by
  funext i
  induction i with
  | zero => rfl
  | succ i ih =>
    show Part000.Wpre w i + (w (i + 1) : ℤ) = _
    rw [ih]
    rfl

lemma part000_XWpre_eq (w : ℕ → ℕ) : Part000.XWpre w = Fastkserver.XWpre w := by
  funext i
  induction i with
  | zero => rfl
  | succ i ih =>
    show Part000.XWpre w i + ((i + 1 : ℕ) : ℤ) * (w (i + 1) : ℤ) = _
    rw [ih]
    rfl

lemma part000_scanMedian_eq (W : ℕ → ℤ) (target : ℤ) :
    ∀ len m lo, Part000.scanMedian W target m lo len = Fastkserver.scanMedian W target m lo len := by
  intro len
  induction len with
  | zero => intro m lo; rfl
  | succ len ih =>
    intro m lo
    show (if target ≤ W lo then lo else Part000.scanMedian W target m (lo + 1) len) = _
    rw [ih]
    rfl

lemma part000_median_eq (i j : ℕ) (W : ℕ → ℤ) :
    Part000.find_weighted_median i j W = Fastkserver.find_weighted_median i j W := by
  unfold Part000.find_weighted_median Fastkserver.find_weighted_median
  rw [part000_scanMedian_eq]

lemma part000_costCore_eq (w : ℕ → ℕ) (i j : ℕ) :
    Part000.costCore w i j = Fastkserver.costCore w i j := by
  simp only [Part000.costCore, Fastkserver.costCore]
  rw [part000_Wpre_eq, part000_XWpre_eq, part000_median_eq]

lemma part000_cost_eq (w : ℕ → ℕ) (n i j : ℕ) :
    Part000.cost w n i j = Fastkserver.cost w n i j := by
  unfold Part000.cost Fastkserver.cost
  rw [part000_costCore_eq]

lemma part000_best_server_eq (w : ℕ → ℕ) (n i j : ℕ) :
    Part000.best_server w n i j = Fastkserver.best_server w n i j := by
  unfold Part000.best_server Fastkserver.best_server
  rw [part000_median_eq, part000_Wpre_eq]

lemma part000_minFold_eq : @Part000.minFold = @Fastkserver.minFold := rfl

lemma part000_DP_eq (w : ℕ → ℕ) (n : ℕ) :
    ∀ t j, Part000.DP w n t j = Fastkserver.DP w n t j := by
  intro t
  induction t using Nat.strong_induction_on with
  | _ t ih =>
    intro j
    rcases t with _ | _ | t'
    · rfl
    · show (if 1 ≤ j ∧ j ≤ n then ((Part000.cost w n 1 j : ℤ) : WithTop ℤ) else ⊤) =
        Fastkserver.DP w n 1 j
      rw [part000_cost_eq]
      rfl
    · show (if t' + 2 ≤ j ∧ j ≤ n then
          (Part000.minFold
            (fun i => Part000.DP w n (t' + 1) i + ((Part000.cost w n (i + 1) j : ℤ) : WithTop ℤ))
            (List.range' (t' + 1) (j - (t' + 1)))).1
        else ⊤) = Fastkserver.DP w n (t' + 2) j
      have hf : (fun i => Part000.DP w n (t' + 1) i +
            ((Part000.cost w n (i + 1) j : ℤ) : WithTop ℤ)) =
          (fun i => Fastkserver.DP w n (t' + 1) i +
            ((Fastkserver.cost w n (i + 1) j : ℤ) : WithTop ℤ)) := by
        funext i
        rw [ih (t' + 1) (by omega) i, part000_cost_eq]
      rw [hf, part000_minFold_eq]
      rfl

lemma part000_choice_eq (w : ℕ → ℕ) (n : ℕ) :
    ∀ t j, Part000.choice w n t j = Fastkserver.choice w n t j := by
  intro t j
  rcases t with _ | _ | t'
  · rfl
  · rfl
  · show (if t' + 2 ≤ j ∧ j ≤ n then
        (Part000.minFold
          (fun i => Part000.DP w n (t' + 1) i + ((Part000.cost w n (i + 1) j : ℤ) : WithTop ℤ))
          (List.range' (t' + 1) (j - (t' + 1)))).2
      else -1) = Fastkserver.choice w n (t' + 2) j
    have hf : (fun i => Part000.DP w n (t' + 1) i +
          ((Part000.cost w n (i + 1) j : ℤ) : WithTop ℤ)) =
        (fun i => Fastkserver.DP w n (t' + 1) i +
          ((Fastkserver.cost w n (i + 1) j : ℤ) : WithTop ℤ)) := by
      funext i
      rw [part000_DP_eq w n (t' + 1) i, part000_cost_eq]
    rw [hf, part000_minFold_eq]
    rfl

lemma part000_backtrackAux_eq (ch : ℕ → ℕ → ℤ) (n : ℕ) :
    ∀ t j, Part000.backtrackAux ch n t j = Fastkserver.backtrackAux ch n t j := by
  intro t
  induction t with
  | zero => intro j; rfl
  | succ t ih =>
    intro j
    show (ch (t + 1) (if j < 0 then j + (n + 1) else j).toNat + 1, j) ::
        Part000.backtrackAux ch n t (ch (t + 1) (if j < 0 then j + (n + 1) else j).toNat) =
      Fastkserver.backtrackAux ch n (t + 1) j
    rw [ih]
    rfl

/-- C9: the duplicated `fast_response_k_server` of `src/Fastkserver.py` and
of `src/unnamed/part_000` are extensionally equal: on every input `(n, k, w)`
both return the same `(min_total_cost, server_positions, segments)`. -/
theorem duplicate_implementations_agree (n k : ℕ) (w : ℕ → ℕ) :
    Fastkserver.fast_response_k_server n k w = Part000.fast_response_k_server n k w := by
  have hch : Part000.choice w n = Fastkserver.choice w n :=
    funext fun t => funext fun j => part000_choice_eq w n t j
  have hbs : (fun s : ℤ × ℤ =>
        if s.1 ≤ s.2 then some (Part000.best_server w n s.1.toNat s.2.toNat) else none) =
      (fun s : ℤ × ℤ =>
        if s.1 ≤ s.2 then some (Fastkserver.best_server w n s.1.toNat s.2.toNat) else none) := by
    funext s
    rw [part000_best_server_eq]
  symm
  simp only [Part000.fast_response_k_server, Fastkserver.fast_response_k_server]
  rw [part000_DP_eq w n k n, hch, part000_backtrackAux_eq, hbs]

/-! Witnesses: the hypothesis-bearing theorems applied at concrete inputs. -/

namespace Fastkserver

theorem cost_eq_bruteforce_min_witness :
    cost wUnit 4 2 4 = (Finset.Icc 2 4).inf' (Finset.nonempty_Icc.mpr (by norm_num))
      (fun m => ∑ p ∈ Finset.Icc 2 4, (wUnit p : ℤ) * |(p : ℤ) - (m : ℤ)|) :=
  cost_eq_bruteforce_min 4 wUnit 2 4 (by norm_num) (by norm_num) (by norm_num)

theorem DP_recurrence_and_choice_witness :
    DP wUnit 2 2 2 = (Finset.Icc (2 - 1) (2 - 1)).inf'
      (Finset.nonempty_Icc.mpr (by omega))
      (fun i => DP wUnit 2 (2 - 1) i + ((cost wUnit 2 (i + 1) 2 : ℤ) : WithTop ℤ)) ∧
    ∃ i₀ : ℕ, choice wUnit 2 2 2 = (i₀ : ℤ) ∧ i₀ ∈ Finset.Icc (2 - 1) (2 - 1) ∧
      DP wUnit 2 2 2 = DP wUnit 2 (2 - 1) i₀ + ((cost wUnit 2 (i₀ + 1) 2 : ℤ) : WithTop ℤ) ∧
      ∀ i ∈ Finset.Icc (2 - 1) (2 - 1),
        DP wUnit 2 (2 - 1) i + ((cost wUnit 2 (i + 1) 2 : ℤ) : WithTop ℤ) = DP wUnit 2 2 2 →
          i₀ ≤ i :=
  DP_recurrence_and_choice 2 2 2 2 wUnit (by norm_num) (by norm_num) (by norm_num) (by norm_num)

theorem segments_partition_witness :
    (fast_response_k_server 4 2 wUnit).2.2.length = 2 ∧
    (∀ s ∈ (fast_response_k_server 4 2 wUnit).2.2, 1 ≤ s.1 ∧ s.1 ≤ s.2 ∧ s.2 ≤ ((4 : ℕ) : ℤ)) ∧
    ((fast_response_k_server 4 2 wUnit).2.2.map Prod.fst).head? = some 1 ∧
    ((fast_response_k_server 4 2 wUnit).2.2.map Prod.snd).getLast? = some ((4 : ℕ) : ℤ) ∧
    List.Chain' (fun a b => a.2 + 1 = b.1) (fast_response_k_server 4 2 wUnit).2.2 :=
  segments_partition 4 2 wUnit (by norm_num) (by norm_num)

theorem find_weighted_median_is_least_witness :
    find_weighted_median 2 4 (Wpre wUnit) ∈ Finset.Icc 2 4 ∧
    Wpre wUnit (2 - 1) + (Wpre wUnit 4 - Wpre wUnit (2 - 1) + 1).fdiv 2 ≤
      Wpre wUnit (find_weighted_median 2 4 (Wpre wUnit)) ∧
    ∀ p ∈ Finset.Icc 2 4,
      Wpre wUnit (2 - 1) + (Wpre wUnit 4 - Wpre wUnit (2 - 1) + 1).fdiv 2 ≤ Wpre wUnit p →
      find_weighted_median 2 4 (Wpre wUnit) ≤ p :=
  find_weighted_median_is_least 4 wUnit 2 4 (by norm_num) (by norm_num) (by norm_num)

theorem segments_cost_sum_witness :
    (fast_response_k_server 4 2 wUnit).1 =
      ((((fast_response_k_server 4 2 wUnit).2.2.map
        fun s => cost wUnit 4 s.1.toNat s.2.toNat).sum : ℤ) : WithTop ℤ) :=
  segments_cost_sum 4 2 wUnit (by norm_num) (by norm_num)

theorem DP_nonincreasing_in_servers_witness :
    (∀ t, 1 ≤ t → t < 1 → DP wUnit 1 (t + 1) 1 ≤ DP wUnit 1 t 1) ∧ DP wUnit 1 1 1 = 0 :=
  DP_nonincreasing_in_servers 1 wUnit (by norm_num)

end Fastkserver
